import Mathlib

/-
A shallow embedding of the mutation-construction subsystem of the Go
datastore client (datastore/mutation.go): Mutation constructors, transform
attachment with property-mask derivation, and the batch builder
`mutationProtos`, together with proofs of the specified properties.

External collaborators (Key, the entity encoder `saveEntity`,
`PropertyTransform`, the generated wire messages) are not part of the
embedded source file; they are modelled from the spec as opaque data with
exactly the observables the embedded code consumes.
-/

set_option autoImplicit false

namespace Datastore

/-- Modelled from the spec: the external Key collaborator (`key.go` is not
part of the embedded source). The embedded code consumes exactly three
observables: a validity check `valid()`, a completeness check
`Incomplete()`, and the canonical string form `stringInternal()` used to
deduplicate deletions. A key is modelled by those observables. -/
structure Key where
  valid : Bool
  incomplete : Bool
  stringInternal : String
deriving DecidableEq, Repr

/-- Modelled from the spec: the wire form of a key. Only identity matters to
the embedded code (the delete payload is key-only), so the wire key is the
key itself. -/
abbrev PbKey := Key

/-- Modelled from the spec: `keyToProto` converts a key to its wire form. -/
def keyToProto (k : Key) : PbKey := k

/-- Modelled from the spec: a wire-format property set (generated
`pb.Entity`). The embedded code only ever reads the property names (the
keys of the `Properties` map), so an entity is modelled by its list of
property names; property values are irrelevant to every embedded path. -/
structure PbEntity where
  properties : List String
deriving DecidableEq, Repr

/-- Modelled from the spec: one wire transform descriptor (generated
`pb.PropertyTransform`): a target property name plus an operation kind. The
embedded code treats it as opaque, so the payload is abstract. -/
structure PbPropertyTransform where
  property : String
  opKind : Nat
deriving DecidableEq, Repr

/-- Modelled from the spec: the public `PropertyTransform` wraps a wire
transform descriptor; `pb = none` models a transform whose construction
failed (the uninitialized state the embedded code checks for). -/
structure PropertyTransform where
  pb : Option PbPropertyTransform
deriving DecidableEq, Repr

/-- The oneof `Operation` field of the generated wire mutation message:
exactly one of insert/update/upsert (carrying a property set) or delete
(carrying a key). -/
inductive PbOperation where
  | insert (e : PbEntity)
  | update (e : PbEntity)
  | upsert (e : PbEntity)
  | delete (k : PbKey)
deriving DecidableEq, Repr

/-- The generated wire mutation message `pb.Mutation`: the oneof operation
(`none` models the nil interface of an unset oneof), the ordered transform
list, and the optional property mask (`none` models a nil `PropertyMask`
pointer, `some paths` a present mask with the given paths). -/
structure PbMutation where
  operation : Option PbOperation
  propertyTransforms : List PbPropertyTransform
  propertyMask : Option (List String)
deriving DecidableEq, Repr

/-- The error values the embedded code can produce: the `ErrInvalidKey`
sentinel, the two incomplete-key errors built with `fmt.Errorf` (they carry
the offending key), the three `errors.New` values of `WithTransforms`, and
an error propagated verbatim from the external entity encoder. -/
inductive Err where
  | invalidKey
  | cantUpdateIncompleteKey (k : Key)
  | cantDeleteIncompleteKey (k : Key)
  | uninitializedMutation
  | uninitializedTransform
  | transformOnDelete
  | encodeFailed (msg : String)
deriving DecidableEq, Repr

/-- The spec's `IncompleteKeyError` kind covers both incomplete-key error
values (update and delete carry different messages in the source). -/
def Err.isIncompleteKeyError : Err → Bool
  | .cantUpdateIncompleteKey _ => true
  | .cantDeleteIncompleteKey _ => true
  | _ => false

/-- `MultiError` is a positional list of per-mutation errors, `none` at the
indices whose mutation is error-free. -/
abbrev MultiError := List (Option Err)

/-- Modelled from the spec: the source value handed to the external entity
encoder, abstracted to what the encoder can observe of it: the property
names it would write, or the encoding error it would raise. -/
structure Src where
  properties : List String
  encodeFailure : Option String
deriving DecidableEq, Repr

/-- Modelled from the spec: the external entity encoder `saveEntity`
(`save.go` is not part of the embedded source): it turns a key and a source
value into a wire property set, or fails with an error that the
constructors propagate verbatim. -/
def saveEntity (_k : Key) (src : Src) : Except Err PbEntity :=
  match src.encodeFailure with
  | some msg => .error (.encodeFailed msg)
  | none => .ok ⟨src.properties⟩

/-- The `Mutation` struct: target key (a nil pointer is `none`), the wire
mutation being built (nil pointer is `none`; the source names this field
`mut`, a reserved word here, so it is `mutPb`), and the sticky deferred
validation error (nil is `none`). -/
structure Mutation where
  key : Option Key
  mutPb : Option PbMutation
  err : Option Err
deriving DecidableEq, Repr

/-- Whether a wire mutation's oneof operation is the Delete variant (the
type assertion `m.mutPb.Operation.(*pb.Mutation_Delete)`); an unset oneof
gives `false`, as a failed type assertion does. -/
def PbMutation.isDeleteOp (pm : PbMutation) : Bool :=
  match pm.operation with
  | some (.delete _) => true
  | _ => false

/-- `Mutation.isDelete` from the source. The Go method reads
`m.mutPb.Operation`, which panics when `m.mutPb` is nil; `none` models that
panic, `some b` a normal return. -/
def Mutation.isDelete (m : Mutation) : Option Bool :=
  m.mutPb.map PbMutation.isDeleteOp

/-- `setMutationProtoPropertyMaskForTransforms` from the source: when the
transform list is non-empty, set the property mask to exactly the property
names of the mutation's own write payload (empty, but present, for an
empty payload or a non-write operation); otherwise leave the mutation
untouched. -/
def setMutationProtoPropertyMaskForTransforms (pm : PbMutation) : PbMutation :=
  if pm.propertyTransforms.length = 0 then pm
  else
    let paths : List String :=
      match pm.operation with
      | some (.insert e) => e.properties
      | some (.update e) => e.properties
      | some (.upsert e) => e.properties
      | _ => []
    { pm with propertyMask := some paths }

/-- The append loop inside `WithTransforms`: walk the supplied transforms in
order, appending each wire payload to the mutation's transform list, and
stop with the uninitialized-transform error at the first transform whose
payload is nil, keeping what was already appended. -/
def appendTransforms (pm : PbMutation) : List PropertyTransform → PbMutation × Option Err
  | [] => (pm, none)
  | t :: rest =>
    match t.pb with
    | none => (pm, some .uninitializedTransform)
    | some tp =>
      appendTransforms { pm with propertyTransforms := pm.propertyTransforms ++ [tp] } rest

/-- `Mutation.WithTransforms` from the source: a no-op on a mutation already
in error; the uninitialized-mutation error on a nil wire mutation; the
transform-on-delete error on a Delete variant; otherwise append the
transforms in order (stopping with an error at the first uninitialized one)
and, on full success, recompute the property mask. -/
def Mutation.WithTransforms (m : Mutation) (transforms : List PropertyTransform) : Mutation :=
  if m.err.isSome then m
  else
    match m.mutPb with
    | none => { m with err := some .uninitializedMutation }
    | some pm =>
      if pm.isDeleteOp then { m with err := some .transformOnDelete }
      else
        match appendTransforms pm transforms with
        | (pm', some e) => { m with mutPb := some pm', err := some e }
        | (pm', none) =>
          { m with mutPb := some (setMutationProtoPropertyMaskForTransforms pm') }

/-- `NewInsert` from the source. -/
def NewInsert (k : Key) (src : Src) : Mutation :=
  if ¬ k.valid then { key := none, mutPb := none, err := some .invalidKey }
  else
    match saveEntity k src with
    | .error e => { key := none, mutPb := none, err := some e }
    | .ok p =>
      { key := some k
        mutPb := some { operation := some (.insert p), propertyTransforms := [], propertyMask := none }
        err := none }

/-- `NewUpsert` from the source. -/
def NewUpsert (k : Key) (src : Src) : Mutation :=
  if ¬ k.valid then { key := none, mutPb := none, err := some .invalidKey }
  else
    match saveEntity k src with
    | .error e => { key := none, mutPb := none, err := some e }
    | .ok p =>
      { key := some k
        mutPb := some { operation := some (.upsert p), propertyTransforms := [], propertyMask := none }
        err := none }

/-- `NewUpdate` from the source: the invalid-key check precedes the
incomplete-key check. -/
def NewUpdate (k : Key) (src : Src) : Mutation :=
  if ¬ k.valid then { key := none, mutPb := none, err := some .invalidKey }
  else if k.incomplete then { key := none, mutPb := none, err := some (.cantUpdateIncompleteKey k) }
  else
    match saveEntity k src with
    | .error e => { key := none, mutPb := none, err := some e }
    | .ok p =>
      { key := some k
        mutPb := some { operation := some (.update p), propertyTransforms := [], propertyMask := none }
        err := none }

/-- `NewDelete` from the source: the invalid-key check precedes the
incomplete-key check; the payload is key-only. -/
def NewDelete (k : Key) : Mutation :=
  if ¬ k.valid then { key := none, mutPb := none, err := some .invalidKey }
  else if k.incomplete then { key := none, mutPb := none, err := some (.cantDeleteIncompleteKey k) }
  else
    { key := some k
      mutPb := some { operation := some (.delete (keyToProto k)), propertyTransforms := [], propertyMask := none }
      err := none }

/-- The emit loop of `mutationProtos`: walk the mutations in order with the
set of canonical key strings of deletions already seen, skipping a delete
whose key string was seen and emitting everything else. `none` models a
panic: `m.isDelete()` dereferencing a nil `m.mutPb`, or `m.key.stringInternal()`
dereferencing a nil key. -/
def mutationProtosGo : List Mutation → List String → Option (List PbMutation)
  | [], _ => some []
  | m :: rest, seen =>
    match m.mutPb with
    | none => none
    | some pm =>
      if pm.isDeleteOp then
        match m.key with
        | none => none
        | some k =>
          let ks := k.stringInternal
          if ks ∈ seen then mutationProtosGo rest seen
          else (mutationProtosGo rest (ks :: seen)).map (pm :: ·)
      else (mutationProtosGo rest seen).map (pm :: ·)

/-- `mutationProtos` from the source: first the validation pass, returning
the positional `MultiError` (and no wire output) when any mutation carries
an error; then the emit pass with delete deduplication. The outer `none`
models the panics of the emit loop. -/
def mutationProtos (muts : List Mutation) : Option (Except MultiError (List PbMutation)) :=
  let merr : MultiError := muts.map (·.err)
  if merr.any (·.isSome) then some (.error merr)
  else (mutationProtosGo muts []).map .ok

/-- The Mutation values reachable through the public interface: built by one
of the four constructors and decorated by any sequence of `WithTransforms`
calls. -/
inductive Reachable : Mutation → Prop where
  | insert (k : Key) (src : Src) : Reachable (NewInsert k src)
  | upsert (k : Key) (src : Src) : Reachable (NewUpsert k src)
  | update (k : Key) (src : Src) : Reachable (NewUpdate k src)
  | delete (k : Key) : Reachable (NewDelete k)
  | withTransforms (m : Mutation) (ts : List PropertyTransform) :
      Reachable m → Reachable (m.WithTransforms ts)

/-- The canonical key string a mutation contributes to delete deduplication:
present exactly when the mutation is a delete with a key. -/
def deleteKeyString (m : Mutation) : Option String :=
  match m.mutPb with
  | some pm => if pm.isDeleteOp then m.key.map Key.stringInternal else none
  | none => none

/-- Stated from the spec's words, as the refinement target for the batch
builder's emit pass: walking the batch in order (with `prev` the mutations
already walked), a mutation is skipped exactly when it is a delete whose
canonical key string equals that of an earlier delete; every other mutation
has its wire message emitted in the original order. -/
def specEmittedProtosAux : List Mutation → List Mutation → List PbMutation
  | _, [] => []
  | prev, m :: rest =>
    let dup : Bool :=
      match deleteKeyString m with
      | some ks => prev.any (fun p => deleteKeyString p = some ks)
      | none => false
    (if dup then [] else m.mutPb.toList) ++ specEmittedProtosAux (prev ++ [m]) rest

/-- Stated from the spec's words: the wire messages the batch builder should
emit for an error-free batch. -/
def specEmittedProtos (muts : List Mutation) : List PbMutation :=
  specEmittedProtosAux [] muts

/-! ### Helper lemmas about the embedded operations -/

theorem setMask_operation (pm : PbMutation) :
    (setMutationProtoPropertyMaskForTransforms pm).operation = pm.operation := by
  unfold setMutationProtoPropertyMaskForTransforms
  split <;> rfl

theorem setMask_propertyTransforms (pm : PbMutation) :
    (setMutationProtoPropertyMaskForTransforms pm).propertyTransforms = pm.propertyTransforms := by
  unfold setMutationProtoPropertyMaskForTransforms
  split <;> rfl

theorem setMask_writeOp (pm : PbMutation) (e : PbEntity)
    (hne : pm.propertyTransforms ≠ [])
    (hop : pm.operation = some (.insert e) ∨ pm.operation = some (.update e) ∨
      pm.operation = some (.upsert e)) :
    setMutationProtoPropertyMaskForTransforms pm = { pm with propertyMask := some e.properties } := by
  unfold setMutationProtoPropertyMaskForTransforms
  rw [if_neg (by simpa using hne)]
  rcases hop with h | h | h <;> rw [h]

theorem isDeleteOp_congr (pm pm' : PbMutation) (h : pm.operation = pm'.operation) :
    pm.isDeleteOp = pm'.isDeleteOp := by
  unfold PbMutation.isDeleteOp
  rw [h]

theorem appendTransforms_fst_operation (ts : List PropertyTransform) (pm : PbMutation) :
    (appendTransforms pm ts).1.operation = pm.operation := by
  induction ts generalizing pm with
  | nil => rfl
  | cons t rest ih =>
    unfold appendTransforms
    rcases t.pb with _ | tp
    · rfl
    · exact ih _

theorem appendTransforms_ok (ts : List PropertyTransform)
    (h : ∀ t ∈ ts, (PropertyTransform.pb t).isSome) (pm : PbMutation) :
    appendTransforms pm ts =
      ({ pm with propertyTransforms := pm.propertyTransforms ++ ts.filterMap PropertyTransform.pb },
        none) := by
  induction ts generalizing pm with
  | nil => simp [appendTransforms]
  | cons t rest ih =>
    obtain ⟨tp, htp⟩ := Option.isSome_iff_exists.mp (h t (by simp))
    simp only [appendTransforms, htp]
    rw [ih fun u hu => h u (by simp [hu])]
    simp [htp, List.filterMap_cons]

theorem appendTransforms_stop (ts₁ : List PropertyTransform) (t : PropertyTransform)
    (ts₂ : List PropertyTransform)
    (h1 : ∀ u ∈ ts₁, (PropertyTransform.pb u).isSome) (ht : t.pb = none) (pm : PbMutation) :
    appendTransforms pm (ts₁ ++ t :: ts₂) =
      ({ pm with propertyTransforms := pm.propertyTransforms ++ ts₁.filterMap PropertyTransform.pb },
        some .uninitializedTransform) := by
  induction ts₁ generalizing pm with
  | nil => simp [appendTransforms, ht]
  | cons u rest ih =>
    obtain ⟨up, hup⟩ := Option.isSome_iff_exists.mp (h1 u (by simp))
    rw [List.cons_append]
    simp only [appendTransforms, hup]
    rw [ih fun v hv => h1 v (by simp [hv])]
    simp [hup, List.filterMap_cons]

theorem appendTransforms_snd_none (ts : List PropertyTransform) (pm : PbMutation)
    (h : (appendTransforms pm ts).2 = none) :
    ∀ t ∈ ts, (PropertyTransform.pb t).isSome := by
  induction ts generalizing pm with
  | nil => simp
  | cons t rest ih =>
    rw [appendTransforms] at h
    rcases htp : t.pb with _ | tp
    · simp only [htp] at h; simp at h
    · simp only [htp] at h
      intro u hu
      rcases List.mem_cons.mp hu with hu | hu
      · subst hu; rw [htp]; rfl
      · exact ih _ h u hu

theorem withTransforms_err (m : Mutation) (e : Err) (ts : List PropertyTransform)
    (h : m.err = some e) : m.WithTransforms ts = m := by
  unfold Mutation.WithTransforms
  rw [h]
  rfl

theorem withTransforms_uninit (m : Mutation) (ts : List PropertyTransform)
    (hme : m.err = none) (hmut : m.mutPb = none) :
    m.WithTransforms ts = { m with err := some .uninitializedMutation } := by
  unfold Mutation.WithTransforms
  rw [hme, hmut]
  rfl

theorem withTransforms_delete (m : Mutation) (pm : PbMutation) (ts : List PropertyTransform)
    (hme : m.err = none) (hmut : m.mutPb = some pm) (hd : pm.isDeleteOp = true) :
    m.WithTransforms ts = { m with err := some .transformOnDelete } := by
  unfold Mutation.WithTransforms
  rw [hme, hmut]
  simp [hd]

theorem withTransforms_notDelete (m : Mutation) (pm : PbMutation) (ts : List PropertyTransform)
    (hme : m.err = none) (hmut : m.mutPb = some pm) (hd : pm.isDeleteOp = false) :
    m.WithTransforms ts =
      match appendTransforms pm ts with
      | (pm', some e) => { m with mutPb := some pm', err := some e }
      | (pm', none) => { m with mutPb := some (setMutationProtoPropertyMaskForTransforms pm') } := by
  unfold Mutation.WithTransforms
  rw [hme, hmut]
  simp [hd]

theorem reachable_wellformed (m : Mutation) (h : Reachable m) :
    m.err.isSome = true ∨
      ∃ pm, m.mutPb = some pm ∧ pm.operation.isSome = true ∧
        (pm.isDeleteOp = true → m.key.isSome = true) := by
  induction h with
  | insert k src =>
    unfold NewInsert
    split
    · left; rfl
    · split
      · left; rfl
      · right; exact ⟨_, rfl, rfl, fun _ => rfl⟩
  | upsert k src =>
    unfold NewUpsert
    split
    · left; rfl
    · split
      · left; rfl
      · right; exact ⟨_, rfl, rfl, fun _ => rfl⟩
  | update k src =>
    unfold NewUpdate
    split
    · left; rfl
    · split
      · left; rfl
      · split
        · left; rfl
        · right; exact ⟨_, rfl, rfl, fun _ => rfl⟩
  | delete k =>
    unfold NewDelete
    split
    · left; rfl
    · split
      · left; rfl
      · right; exact ⟨_, rfl, rfl, fun _ => rfl⟩
  | withTransforms m ts hr ih =>
    rcases he : m.err with _ | e
    · rcases ih with hsome | ⟨pm, hmut, hop, hkey⟩
      · rw [he] at hsome; exact absurd hsome (by simp)
      · by_cases hd : pm.isDeleteOp = true
        · rw [withTransforms_delete m pm ts he hmut hd]
          left; rfl
        · rw [withTransforms_notDelete m pm ts he hmut (by simpa using hd)]
          rcases happ : appendTransforms pm ts with ⟨pm', e?⟩
          have hop' : pm'.operation = pm.operation := by
            have h1 := appendTransforms_fst_operation ts pm
            rw [happ] at h1; exact h1
          rcases e? with _ | e
          · right
            refine ⟨setMutationProtoPropertyMaskForTransforms pm', rfl, ?_, ?_⟩
            · rw [setMask_operation, hop']; exact hop
            · intro hdd
              exact absurd (by
                rw [← isDeleteOp_congr pm' _ (setMask_operation pm').symm,
                  isDeleteOp_congr pm' pm hop'] at hdd
                exact hdd) hd
          · left; rfl
    · rw [withTransforms_err m e ts he]
      left; simp [he]

/-! ### The batch builder's emit pass refines the spec's description -/

theorem mutationProtosGo_spec (muts : List Mutation)
    (h : ∀ m ∈ muts, ∃ pm, m.mutPb = some pm ∧ (pm.isDeleteOp = true → m.key.isSome = true))
    (prev : List Mutation) (seen : List String)
    (hseen : ∀ ks, ks ∈ seen ↔ ∃ p ∈ prev, deleteKeyString p = some ks) :
    mutationProtosGo muts seen = some (specEmittedProtosAux prev muts) := by
  induction muts generalizing prev seen with
  | nil => rfl
  | cons m rest ih =>
    obtain ⟨pm, hmut, hkey⟩ := h m (by simp)
    have hrest : ∀ m' ∈ rest, ∃ pm', m'.mutPb = some pm' ∧
        (pm'.isDeleteOp = true → m'.key.isSome = true) :=
      fun m' hm' => h m' (by simp [hm'])
    simp only [mutationProtosGo, specEmittedProtosAux, hmut]
    by_cases hd : pm.isDeleteOp = true
    · obtain ⟨k, hk⟩ := Option.isSome_iff_exists.mp (hkey hd)
      have hdks : deleteKeyString m = some k.stringInternal := by
        simp only [deleteKeyString, hmut]
        rw [if_pos hd, hk]
        rfl
      rw [if_pos hd]
      simp only [hk]
      by_cases hmem : k.stringInternal ∈ seen
      · rw [if_pos hmem]
        have hdup : (prev.any fun p => deleteKeyString p = some k.stringInternal) = true := by
          obtain ⟨p, hp, hdp⟩ := (hseen k.stringInternal).mp hmem
          simp only [List.any_eq_true, decide_eq_true_eq]
          exact ⟨p, hp, hdp⟩
        have hseen' : ∀ ks, ks ∈ seen ↔ ∃ p ∈ prev ++ [m], deleteKeyString p = some ks := by
          intro ks
          simp only [List.mem_append, List.mem_cons, List.not_mem_nil, or_false]
          constructor
          · intro hks
            obtain ⟨p, hp, hdp⟩ := (hseen ks).mp hks
            exact ⟨p, Or.inl hp, hdp⟩
          · rintro ⟨p, hp | rfl, hdp⟩
            · exact (hseen ks).mpr ⟨p, hp, hdp⟩
            · rw [hdks] at hdp
              obtain rfl := Option.some_injective _ hdp
              exact hmem
        rw [ih hrest (prev ++ [m]) seen hseen']
        simp [hdks, hdup]
      · rw [if_neg hmem]
        have hdup : (prev.any fun p => deleteKeyString p = some k.stringInternal) = false := by
          by_contra hany
          rw [Bool.not_eq_false, List.any_eq_true] at hany
          obtain ⟨p, hp, hdp⟩ := hany
          rw [decide_eq_true_eq] at hdp
          exact hmem ((hseen k.stringInternal).mpr ⟨p, hp, hdp⟩)
        have hseen' : ∀ ks, ks ∈ k.stringInternal :: seen ↔
            ∃ p ∈ prev ++ [m], deleteKeyString p = some ks := by
          intro ks
          simp only [List.mem_cons, List.mem_append, List.not_mem_nil, or_false]
          constructor
          · rintro (rfl | hks)
            · exact ⟨m, Or.inr rfl, hdks⟩
            · obtain ⟨p, hp, hdp⟩ := (hseen ks).mp hks
              exact ⟨p, Or.inl hp, hdp⟩
          · rintro ⟨p, hp | rfl, hdp⟩
            · exact Or.inr ((hseen ks).mpr ⟨p, hp, hdp⟩)
            · rw [hdks] at hdp
              exact Or.inl (Option.some_injective _ hdp).symm
        rw [ih hrest (prev ++ [m]) (k.stringInternal :: seen) hseen']
        simp [hdks, hdup, hmut]
    · have hdks : deleteKeyString m = none := by
        simp only [deleteKeyString, hmut]
        rw [if_neg hd]
      rw [if_neg hd]
      have hseen' : ∀ ks, ks ∈ seen ↔ ∃ p ∈ prev ++ [m], deleteKeyString p = some ks := by
        intro ks
        simp only [List.mem_append, List.mem_cons, List.not_mem_nil, or_false]
        constructor
        · intro hks
          obtain ⟨p, hp, hdp⟩ := (hseen ks).mp hks
          exact ⟨p, Or.inl hp, hdp⟩
        · rintro ⟨p, hp | rfl, hdp⟩
          · exact (hseen ks).mpr ⟨p, hp, hdp⟩
          · rw [hdks] at hdp; exact absurd hdp (by simp)
      rw [ih hrest (prev ++ [m]) seen hseen']
      simp [hdks, hmut]

theorem mutationProtos_anyerr (muts : List Mutation)
    (h : (muts.map (·.err)).any (·.isSome) = true) :
    mutationProtos muts = some (.error (muts.map (·.err))) := by
  unfold mutationProtos
  rw [if_pos h]

theorem mutationProtos_noerr (muts : List Mutation) (h : ∀ m ∈ muts, m.err = none) :
    mutationProtos muts = (mutationProtosGo muts []).map Except.ok := by
  unfold mutationProtos
  rw [if_neg ?_]
  simp only [List.any_eq_true, List.mem_map, not_exists]
  rintro x ⟨⟨m, hm, rfl⟩, hs⟩
  rw [h m hm] at hs
  exact absurd hs (by simp)

/-! ### The claims -/

/-- Claim C1 counterexample: calling `WithTransforms` on a freshly built
Delete mutation over a valid complete key yields a Mutation, reachable
through the public interface, that has its error set and still has its
operation present — so error state and valid state are not exclusive. -/
theorem C1_counterexample :
    Reachable ((NewDelete ⟨true, false, "K"⟩).WithTransforms [⟨some ⟨"p", 0⟩⟩]) ∧
      ((NewDelete ⟨true, false, "K"⟩).WithTransforms [⟨some ⟨"p", 0⟩⟩]).err.isSome = true ∧
      ∃ pm, ((NewDelete ⟨true, false, "K"⟩).WithTransforms [⟨some ⟨"p", 0⟩⟩]).mutPb = some pm ∧
        pm.operation.isSome = true :=
  ⟨Reachable.withTransforms _ _ (Reachable.delete _), rfl, ⟨_, rfl, rfl⟩⟩

/-- Claim C1 (amended): every Mutation reachable through the public interface
has its error set or its operation present — never neither; the exclusive
form fails because a failed `WithTransforms` on an initialized mutation sets
the error while leaving the operation in place. -/
theorem C1_amended_err_or_operation (m : Mutation) (h : Reachable m) :
    m.err.isSome = true ∨ ∃ pm, m.mutPb = some pm ∧ pm.operation.isSome = true := by
  rcases reachable_wellformed m h with hs | ⟨pm, h1, h2, _⟩
  · exact Or.inl hs
  · exact Or.inr ⟨pm, h1, h2⟩

/-- Witness for the amended claim C1 at a freshly inserted mutation. -/
theorem C1_amended_witness :
    (NewInsert ⟨true, false, "K"⟩ ⟨["x"], none⟩).err.isSome = true ∨
      ∃ pm, (NewInsert ⟨true, false, "K"⟩ ⟨["x"], none⟩).mutPb = some pm ∧
        pm.operation.isSome = true :=
  C1_amended_err_or_operation _ (Reachable.insert _ _)

/-- Claim C2: for an error-free Insert/Update/Upsert mutation, after any
successful `WithTransforms` call that leaves the transform list non-empty,
the property mask is present and equals, as a set, exactly the property
names of the mutation's own write payload; an empty payload gives the
present-but-empty mask, never an absent one. -/
theorem C2_mask_is_payload (m : Mutation) (pm : PbMutation) (e : PbEntity)
    (ts : List PropertyTransform)
    (hme : m.err = none) (hmut : m.mutPb = some pm)
    (hop : pm.operation = some (.insert e) ∨ pm.operation = some (.update e) ∨
      pm.operation = some (.upsert e))
    (hok : (m.WithTransforms ts).err = none)
    (hne : pm.propertyTransforms ≠ [] ∨ ts ≠ []) :
    ∃ pm' paths, (m.WithTransforms ts).mutPb = some pm' ∧
      pm'.propertyMask = some paths ∧
      paths.toFinset = e.properties.toFinset ∧
      (e.properties = [] → paths = []) := by
  have hd : pm.isDeleteOp = false := by
    unfold PbMutation.isDeleteOp
    rcases hop with h1 | h1 | h1 <;> rw [h1]
  have hW := withTransforms_notDelete m pm ts hme hmut hd
  rcases happ : appendTransforms pm ts with ⟨pm', e?⟩
  rw [happ] at hW
  rcases e? with _ | e0
  · have hvalid : ∀ t ∈ ts, (PropertyTransform.pb t).isSome :=
      appendTransforms_snd_none ts pm (by rw [happ])
    have hpm' : pm' =
        { pm with propertyTransforms :=
            pm.propertyTransforms ++ ts.filterMap PropertyTransform.pb } :=
      congrArg Prod.fst (happ.symm.trans (appendTransforms_ok ts hvalid pm))
    subst hpm'
    have hTne : pm.propertyTransforms ++ ts.filterMap PropertyTransform.pb ≠ [] := by
      rcases hne with h1 | h1
      · simp [h1]
      · intro hcontra
        rcases List.append_eq_nil.mp hcontra with ⟨_, h2⟩
        rcases ts with _ | ⟨t, rest⟩
        · exact h1 rfl
        · obtain ⟨tp, htp⟩ := Option.isSome_iff_exists.mp (hvalid t (by simp))
          rw [List.filterMap_cons, htp] at h2
          simp at h2
    rw [hW]
    have hmask := setMask_writeOp
      { pm with propertyTransforms :=
          pm.propertyTransforms ++ ts.filterMap PropertyTransform.pb } e hTne hop
    exact ⟨_, e.properties, rfl, by rw [hmask], rfl, fun h => h⟩
  · rw [hW] at hok
    simp at hok

/-- Witness for claim C2 at a fresh Insert mutation with payload properties
x, y and one attached transform. -/
theorem C2_witness :
    ∃ pm' paths,
      ((NewInsert ⟨true, false, "K"⟩ ⟨["x", "y"], none⟩).WithTransforms
        [⟨some ⟨"p", 0⟩⟩]).mutPb = some pm' ∧
      pm'.propertyMask = some paths ∧
      paths.toFinset = (PbEntity.mk ["x", "y"]).properties.toFinset ∧
      ((PbEntity.mk ["x", "y"]).properties = [] → paths = []) :=
  C2_mask_is_payload _ _ _ _ rfl rfl (Or.inl rfl) rfl (Or.inr (by decide))

/-- Claim C3: on every batch of error-free publicly built mutations the
batch builder succeeds and emits wire messages in the original input order,
skipping a mutation exactly when it is a Delete whose canonical key string
equals that of an earlier Delete in the batch (the spec-side emit
function); in particular non-delete mutations are always emitted. -/
theorem C3_dedup_deletes (muts : List Mutation)
    (h : ∀ m ∈ muts, Reachable m ∧ m.err = none) :
    mutationProtos muts = some (.ok (specEmittedProtos muts)) := by
  have hwf : ∀ m ∈ muts, ∃ pm, m.mutPb = some pm ∧
      (pm.isDeleteOp = true → m.key.isSome = true) := by
    intro m hm
    rcases reachable_wellformed m (h m hm).1 with hs | ⟨pm, h1, _, h3⟩
    · rw [(h m hm).2] at hs; exact absurd hs (by simp)
    · exact ⟨pm, h1, h3⟩
  rw [mutationProtos_noerr muts fun m hm => (h m hm).2,
    mutationProtosGo_spec muts hwf [] [] (by simp)]
  rfl

/-- Witness for claim C3 on a batch with a duplicated Delete on key K, an
Upsert on the same key K, and a Delete on key L. -/
theorem C3_witness :
    mutationProtos [NewDelete ⟨true, false, "K"⟩,
        NewUpsert ⟨true, false, "K"⟩ ⟨["x"], none⟩,
        NewDelete ⟨true, false, "K"⟩, NewDelete ⟨true, false, "L"⟩] =
      some (.ok (specEmittedProtos [NewDelete ⟨true, false, "K"⟩,
        NewUpsert ⟨true, false, "K"⟩ ⟨["x"], none⟩,
        NewDelete ⟨true, false, "K"⟩, NewDelete ⟨true, false, "L"⟩])) :=
  C3_dedup_deletes _ (by
    intro m hm
    simp only [List.mem_cons, List.not_mem_nil, or_false] at hm
    rcases hm with rfl | rfl | rfl | rfl
    · exact ⟨Reachable.delete _, rfl⟩
    · exact ⟨Reachable.upsert _ _, rfl⟩
    · exact ⟨Reachable.delete _, rfl⟩
    · exact ⟨Reachable.delete _, rfl⟩)

/-- Claim C4: when any input mutation carries an error, the batch builder
returns no wire output but the positional aggregate error: one slot per
input mutation, holding that mutation's own error at its index and nothing
at the error-free indices. -/
theorem C4_positional_errors (muts : List Mutation)
    (h : ∃ m ∈ muts, m.err.isSome = true) :
    mutationProtos muts = some (.error (muts.map (·.err))) ∧
      (muts.map (·.err)).length = muts.length ∧
      ∀ i (hi : i < muts.length),
        (muts.map (·.err)).get ⟨i, by simpa using hi⟩ = (muts.get ⟨i, hi⟩).err := by
  have hany : (muts.map (·.err)).any (·.isSome) = true := by
    obtain ⟨m, hm, hs⟩ := h
    simp only [List.any_eq_true, List.mem_map]
    exact ⟨m.err, ⟨m, hm, rfl⟩, hs⟩
  refine ⟨mutationProtos_anyerr muts hany, by simp, ?_⟩
  intro i hi
  simp

/-- Witness for claim C4 on a two-element batch whose second mutation is a
Delete of an invalid key. -/
theorem C4_witness :
    mutationProtos [NewUpsert ⟨true, false, "K"⟩ ⟨["x"], none⟩,
        NewDelete ⟨false, false, "B"⟩] =
      some (.error ([NewUpsert ⟨true, false, "K"⟩ ⟨["x"], none⟩,
        NewDelete ⟨false, false, "B"⟩].map (·.err))) ∧
      ([NewUpsert ⟨true, false, "K"⟩ ⟨["x"], none⟩,
        NewDelete ⟨false, false, "B"⟩].map (·.err)).length =
        [NewUpsert ⟨true, false, "K"⟩ ⟨["x"], none⟩,
          NewDelete ⟨false, false, "B"⟩].length ∧
      ∀ i (hi : i < [NewUpsert ⟨true, false, "K"⟩ ⟨["x"], none⟩,
          NewDelete ⟨false, false, "B"⟩].length),
        ([NewUpsert ⟨true, false, "K"⟩ ⟨["x"], none⟩,
          NewDelete ⟨false, false, "B"⟩].map (·.err)).get ⟨i, by simpa using hi⟩ =
          ([NewUpsert ⟨true, false, "K"⟩ ⟨["x"], none⟩,
            NewDelete ⟨false, false, "B"⟩].get ⟨i, hi⟩).err :=
  C4_positional_errors _ ⟨NewDelete ⟨false, false, "B"⟩, by decide, rfl⟩

/-- Claim C5: `WithTransforms` on an error-free Delete-variant mutation, for
any transform list, produces exactly the transform-on-delete error and
leaves the mutation otherwise unchanged: same key, same wire mutation, so
no transform is appended and no property mask is set. -/
theorem C5_transform_on_delete (m : Mutation) (pm : PbMutation) (k : PbKey)
    (ts : List PropertyTransform)
    (hme : m.err = none) (hmut : m.mutPb = some pm)
    (hop : pm.operation = some (.delete k)) :
    m.WithTransforms ts = { m with err := some .transformOnDelete } :=
  withTransforms_delete m pm ts hme hmut (by unfold PbMutation.isDeleteOp; rw [hop])

/-- Witness for claim C5 at a fresh Delete mutation. -/
theorem C5_witness :
    (NewDelete ⟨true, false, "K"⟩).WithTransforms [⟨some ⟨"p", 0⟩⟩] =
      { NewDelete ⟨true, false, "K"⟩ with err := some .transformOnDelete } :=
  C5_transform_on_delete _ _ ⟨true, false, "K"⟩ _ rfl rfl rfl

/-- Claim C6: once a mutation's error is set, every subsequent
`WithTransforms` call is a no-op that returns the mutation unchanged and
preserves the first error. -/
theorem C6_sticky_error (m : Mutation) (e : Err) (ts : List PropertyTransform)
    (h : m.err = some e) :
    m.WithTransforms ts = m ∧ (m.WithTransforms ts).err = some e := by
  have hW := withTransforms_err m e ts h
  exact ⟨hW, by rw [hW, h]⟩

/-- Witness for claim C6 at an Update mutation built over an incomplete
key. -/
theorem C6_witness :
    (NewUpdate ⟨true, true, "I"⟩ ⟨[], none⟩).WithTransforms [⟨some ⟨"p", 0⟩⟩] =
        NewUpdate ⟨true, true, "I"⟩ ⟨[], none⟩ ∧
      ((NewUpdate ⟨true, true, "I"⟩ ⟨[], none⟩).WithTransforms
        [⟨some ⟨"p", 0⟩⟩]).err = some (.cantUpdateIncompleteKey ⟨true, true, "I"⟩) :=
  C6_sticky_error _ _ _ rfl

/-- Claim C7: NewUpdate and NewDelete yield the invalid-key error on every
key constructed as invalid — including a key simultaneously invalid and
incomplete, where the invalid-key check wins — and the incomplete-key error
(the spec's IncompleteKeyError kind) on every valid key constructed as
incomplete. -/
theorem C7_update_delete_key_errors (k : Key) (src : Src) :
    (k.valid = false →
      (NewUpdate k src).err = some .invalidKey ∧
        (NewDelete k).err = some .invalidKey) ∧
    (k.valid = true → k.incomplete = true →
      (NewUpdate k src).err = some (.cantUpdateIncompleteKey k) ∧
        (NewUpdate k src).err.any Err.isIncompleteKeyError = true ∧
        (NewDelete k).err = some (.cantDeleteIncompleteKey k) ∧
        (NewDelete k).err.any Err.isIncompleteKeyError = true) := by
  constructor
  · intro hv
    unfold NewUpdate NewDelete
    rw [if_pos (by simp [hv]), if_pos (by simp [hv])]
    exact ⟨rfl, rfl⟩
  · intro hv hi
    unfold NewUpdate NewDelete
    rw [if_neg (by simp [hv]), if_pos hi, if_neg (by simp [hv]), if_pos hi]
    exact ⟨rfl, rfl, rfl, rfl⟩

/-- Witness for claim C7 at an invalid incomplete key and at a valid
incomplete key. -/
theorem C7_witness :
    ((NewUpdate ⟨false, true, "A"⟩ ⟨[], none⟩).err = some .invalidKey ∧
      (NewDelete ⟨false, true, "A"⟩).err = some .invalidKey) ∧
    ((NewUpdate ⟨true, true, "B"⟩ ⟨[], none⟩).err =
        some (.cantUpdateIncompleteKey ⟨true, true, "B"⟩) ∧
      (NewUpdate ⟨true, true, "B"⟩ ⟨[], none⟩).err.any Err.isIncompleteKeyError = true ∧
      (NewDelete ⟨true, true, "B"⟩).err = some (.cantDeleteIncompleteKey ⟨true, true, "B"⟩) ∧
      (NewDelete ⟨true, true, "B"⟩).err.any Err.isIncompleteKeyError = true) :=
  ⟨(C7_update_delete_key_errors ⟨false, true, "A"⟩ ⟨[], none⟩).1 rfl,
    (C7_update_delete_key_errors ⟨true, true, "B"⟩ ⟨[], none⟩).2 rfl rfl⟩

/-- Claim C8: on an error-free non-delete mutation whose transform list is
still empty, `WithTransforms` with [A, B] followed by `WithTransforms` with
[C] yields a mutation whose wire transform list is exactly [A, B, C]:
ordered first by call, then by argument position within a call. -/
theorem C8_transform_order (m : Mutation) (pm : PbMutation)
    (tA tB tC : PropertyTransform) (a b c : PbPropertyTransform)
    (hme : m.err = none) (hmut : m.mutPb = some pm) (hd : pm.isDeleteOp = false)
    (hempty : pm.propertyTransforms = [])
    (hA : tA.pb = some a) (hB : tB.pb = some b) (hC : tC.pb = some c) :
    ∃ pm', ((m.WithTransforms [tA, tB]).WithTransforms [tC]).mutPb = some pm' ∧
      pm'.propertyTransforms = [a, b, c] := by
  have hv1 : ∀ t ∈ [tA, tB], (PropertyTransform.pb t).isSome := by
    intro t ht
    simp only [List.mem_cons, List.not_mem_nil, or_false] at ht
    rcases ht with rfl | rfl
    · rw [hA]; rfl
    · rw [hB]; rfl
  have hfm1 : List.filterMap PropertyTransform.pb [tA, tB] = [a, b] := by
    simp [List.filterMap_cons, hA, hB]
  have hW1 := withTransforms_notDelete m pm [tA, tB] hme hmut hd
  rw [appendTransforms_ok _ hv1 pm, hfm1, hempty] at hW1
  set pm1 : PbMutation := { pm with propertyTransforms := ([] : List PbPropertyTransform) ++ [a, b] } with hpm1
  have h1err : (m.WithTransforms [tA, tB]).err = none := by
    rw [hW1, hme]
  have h1mut : (m.WithTransforms [tA, tB]).mutPb =
      some (setMutationProtoPropertyMaskForTransforms pm1) := by
    rw [hW1]
  have h1d : (setMutationProtoPropertyMaskForTransforms pm1).isDeleteOp = false := by
    rw [isDeleteOp_congr _ pm1 (setMask_operation pm1)]
    rw [isDeleteOp_congr pm1 pm rfl]
    exact hd
  have hv2 : ∀ t ∈ [tC], (PropertyTransform.pb t).isSome := by
    intro t ht
    simp only [List.mem_cons, List.not_mem_nil, or_false] at ht
    rcases ht with rfl
    rw [hC]; rfl
  have hW2 := withTransforms_notDelete (m.WithTransforms [tA, tB])
    (setMutationProtoPropertyMaskForTransforms pm1) [tC] h1err h1mut h1d
  rw [appendTransforms_ok _ hv2 _] at hW2
  rw [hW2]
  refine ⟨_, rfl, ?_⟩
  rw [setMask_propertyTransforms, setMask_propertyTransforms]
  simp [hC]

/-- Witness for claim C8 at a fresh Insert mutation and three initialized
transforms. -/
theorem C8_witness :
    ∃ pm', (((NewInsert ⟨true, false, "K"⟩ ⟨["x"], none⟩).WithTransforms
        [⟨some ⟨"p", 0⟩⟩, ⟨some ⟨"q", 1⟩⟩]).WithTransforms
        [⟨some ⟨"r", 2⟩⟩]).mutPb = some pm' ∧
      pm'.propertyTransforms = [⟨"p", 0⟩, ⟨"q", 1⟩, ⟨"r", 2⟩] :=
  C8_transform_order _ _ _ _ _ ⟨"p", 0⟩ ⟨"q", 1⟩ ⟨"r", 2⟩
    rfl rfl rfl rfl rfl rfl rfl

/-- Claim C9: the batch builder is total on batches of publicly constructed
mutations — every such mutation has an error or an operation, so the nil
dereference inside the delete check is unreachable — while on a zero-value
Mutation (no error, no operation) that dereference branch is reached and
the builder has no result. -/
theorem C9_totality :
    (∀ muts : List Mutation, (∀ m ∈ muts, Reachable m) →
      (mutationProtos muts).isSome = true) ∧
    mutationProtos [{ key := none, mutPb := none, err := none }] = none := by
  constructor
  · intro muts h
    by_cases hany : (muts.map (·.err)).any (·.isSome) = true
    · rw [mutationProtos_anyerr muts hany]; rfl
    · have herr : ∀ m ∈ muts, m.err = none := by
        intro m hm
        rcases hem : m.err with _ | e
        · rfl
        · refine absurd ?_ hany
          simp only [List.any_eq_true, List.mem_map]
          exact ⟨m.err, ⟨m, hm, rfl⟩, by rw [hem]; rfl⟩
      have hwf : ∀ m ∈ muts, ∃ pm, m.mutPb = some pm ∧
          (pm.isDeleteOp = true → m.key.isSome = true) := by
        intro m hm
        rcases reachable_wellformed m (h m hm) with hs | ⟨pm, h1, _, h3⟩
        · rw [herr m hm] at hs; exact absurd hs (by simp)
        · exact ⟨pm, h1, h3⟩
      rw [mutationProtos_noerr muts herr,
        mutationProtosGo_spec muts hwf [] [] (by simp)]
      rfl
  · rfl

/-- Witness for the universally quantified half of claim C9 at a singleton
batch holding one fresh Delete mutation. -/
theorem C9_witness :
    (mutationProtos [NewDelete ⟨true, false, "K"⟩]).isSome = true ∧
      mutationProtos [{ key := none, mutPb := none, err := none }] = none :=
  ⟨C9_totality.1 [NewDelete ⟨true, false, "K"⟩] (by
      intro m hm
      simp only [List.mem_cons, List.not_mem_nil, or_false] at hm
      rcases hm with rfl
      exact Reachable.delete _),
    C9_totality.2⟩

/-- Claim C10: `WithTransforms` on an error-free non-delete mutation, given
a list that is a fully initialized prefix followed by an uninitialized
transform, sets the uninitialized-transform error but is not atomic: the
prefix's wire payloads remain appended to the transform list and the
property mask is left exactly as it was (not recomputed). -/
theorem C10_partial_append (m : Mutation) (pm : PbMutation)
    (ts₁ : List PropertyTransform) (t : PropertyTransform) (ts₂ : List PropertyTransform)
    (hme : m.err = none) (hmut : m.mutPb = some pm) (hd : pm.isDeleteOp = false)
    (h1 : ∀ u ∈ ts₁, (PropertyTransform.pb u).isSome) (ht : t.pb = none) :
    m.WithTransforms (ts₁ ++ t :: ts₂) =
      { m with
        mutPb := some { pm with
          propertyTransforms := pm.propertyTransforms ++ ts₁.filterMap PropertyTransform.pb },
        err := some .uninitializedTransform } := by
  have hW := withTransforms_notDelete m pm (ts₁ ++ t :: ts₂) hme hmut hd
  rw [appendTransforms_stop ts₁ t ts₂ h1 ht pm] at hW
  exact hW

/-- Witness for claim C10 at a fresh Insert mutation, one valid transform
followed by an uninitialized one. -/
theorem C10_witness :
    (NewInsert ⟨true, false, "K"⟩ ⟨["x"], none⟩).WithTransforms
        ([⟨some ⟨"p", 0⟩⟩] ++ ⟨none⟩ :: []) =
      { NewInsert ⟨true, false, "K"⟩ ⟨["x"], none⟩ with
        mutPb := some { (⟨some (.insert ⟨["x"]⟩), [], none⟩ : PbMutation) with
          propertyTransforms := ([] : List PbPropertyTransform) ++
            List.filterMap PropertyTransform.pb [⟨some ⟨"p", 0⟩⟩] },
        err := some .uninitializedTransform } :=
  C10_partial_append _ _ [⟨some ⟨"p", 0⟩⟩] ⟨none⟩ [] rfl rfl rfl (by decide) rfl

end Datastore
